import Mathlib

/-!
# MensaMate — verification of the Menu Table Interpreter

A shallow embedding, in Lean 4, of the parsing core of `src/mensa_email.py`
(the HWR Mensa email bot): the legend resolver, the cell merger, the dish
extractor and the menu builder, together with proofs settling the frozen
claims about this program.

Modelling conventions:
* Python `str` values are modelled as `List Char` (`Str`); Python's
  `None`-able PDF cells as `Option Str`.
* Python `set` values are modelled as `List Str` where only membership and
  non-emptiness are ever consumed (filter words, filter allergen names), and
  as `Finset Str` where set equality matters (dish allergen codes, resolved
  filter codes).
* Python `float` prices are modelled exactly in integer cents
  (`price100 : ℕ`, with the rational view `Dish.priceQ = price100 / 100`).
  Every price the parser can produce is a two-decimal value `d{1,2}.d{2}`
  (from `PRICE_LINE_RE` group 1); on that grammar conversion to IEEE double
  is injective and monotone and the program's only comparison,
  `price <= 1.0`, holds for the double exactly when it holds for the exact
  value (1.0 is an exact double and adjacent grammar values differ by 0.01,
  far above one ulp at 1.0), so integer cents are an exact model of the
  program's float behaviour.
* The character classes of Python's `re` (`\d`, `\s`, `str.lower`,
  `str.strip`) are modelled on the alphabet the program actually meets
  (ASCII plus the German letters appearing in the source's regexes); each
  helper notes the modelled Python construct.
* `pdfplumber` is the out-of-scope document-extraction collaborator; its
  result is modelled as an `Option` table argument (see `get_all_dishes`).
-/

/-- Python `str` modelled as a list of unicode scalar values. -/
abbrev Str := List Char

/-! ## Character classes and elementary string operations -/

/-- Python regex `\d` / the digits the menu PDF contains (ASCII `0`-`9`). -/
def isDig (c : Char) : Bool := '0' ≤ c && c ≤ '9'

/-- ASCII lowercase `a`-`z` (the `a-z` ranges in the source's regexes). -/
def isLowerAlpha (c : Char) : Bool := 'a' ≤ c && c ≤ 'z'

/-- Python regex `\s` and the default `str.strip` / `str.split` whitespace,
on the characters this program can meet (ASCII whitespace, the C1 and
unicode space characters Python also treats as blank). -/
def pyWs (c : Char) : Bool :=
  c = ' ' || c = '\t' || c = '\n' || c = '\x0b' || c = '\x0c' || c = '\r' ||
  c = '\x1c' || c = '\x1d' || c = '\x1e' || c = '\x1f' || c = '\x85' ||
  c = '\xa0' || c = ' ' || c = ' '

/-- Line-boundary characters of Python `str.splitlines`. -/
def isLineBreak (c : Char) : Bool :=
  c = '\n' || c = '\r' || c = '\x0b' || c = '\x0c' ||
  c = '\x1c' || c = '\x1d' || c = '\x1e' || c = '\x85' ||
  c = ' ' || c = ' '

/-- Python `str.splitlines()`: split at line boundaries (`\r\n` counting as
one boundary), with no trailing empty line for a terminal boundary. -/
def splitlinesPy : Str → List Str
  | [] => []
  | '\r' :: '\n' :: r => [] :: splitlinesPy r
  | c :: r =>
    if isLineBreak c then [] :: splitlinesPy r
    else
      match splitlinesPy r with
      | [] => [[c]]
      | line :: rest => (c :: line) :: rest

/-- Python `str.strip()`: drop leading and trailing whitespace. -/
def pyStrip (l : Str) : Str :=
  ((l.dropWhile pyWs).reverse.dropWhile pyWs).reverse

/-- Python `str.lower()` on one character, on the alphabet this program
meets (ASCII letters and the German umlauts of the source's regexes). -/
def charLower (c : Char) : Char :=
  if 'A' ≤ c ∧ c ≤ 'Z' then Char.ofNat (c.toNat + 32)
  else if c = 'Ä' then 'ä'
  else if c = 'Ö' then 'ö'
  else if c = 'Ü' then 'ü'
  else c

/-- Python `str.lower()`. -/
def pyLower (l : Str) : Str := l.map charLower

/-- Python `needle in hay` prefix step: does `hay` start with `needle`? -/
def leadsWith : Str → Str → Bool
  | [], _ => true
  | _ :: _, [] => false
  | a :: as, b :: bs => a = b && leadsWith as bs

/-- Python substring containment `needle in hay`. -/
def isSubstr (needle : Str) : Str → Bool
  | [] => leadsWith needle []
  | hay@(_ :: t) => leadsWith needle hay || isSubstr needle t

/-- Python `raw.split(",")` (single-character separator, keeping empties). -/
def splitOnComma : Str → List Str
  | [] => [[]]
  | c :: rest =>
    if c = ',' then [] :: splitOnComma rest
    else
      match splitOnComma rest with
      | [] => [[c]]
      | h :: t => (c :: h) :: t

/-- First-match lookup in an insertion-ordered association list; because
`dictInsert` updates in place, the first hit carries the latest value, so
this is Python `dict` lookup. -/
def alistLookup {β : Type} : List (Str × β) → Str → Option β
  | [], _ => none
  | (k, v) :: rest, key => if k = key then some v else alistLookup rest key

/-- Python `dict` assignment `m[k] = v`: update in place if the key exists
(keeping its position), else append. -/
def dictInsert : List (Str × Str) → Str → Str → List (Str × Str)
  | [], k, v => [(k, v)]
  | (k0, v0) :: rest, k, v =>
    if k0 = k then (k0, v) :: rest else (k0, v0) :: dictInsert rest k v

/-! ## `PRICE_LINE_RE` — the price-line pattern

`(\d{1,2},\d{2})\s*€\s*\|\s*(\d{1,2},\d{2})\s*€\s*\|\s*(\d{1,2},\d{2})\s*€`,
used through `re.search` (leftmost match) and `group(1)`.  The pattern is
deterministic once the position is fixed: `\d{1,2}` prefers two digits, and
whenever the two-digit shape parses, the one-digit alternative cannot
succeed at the same position (its `,` would have to sit on a digit), so no
cross-token backtracking arises; the `\s*` runs are maximal-munch because
the characters that follow them (`€`, `|`, digits) are never whitespace. -/

/-- One `\d{1,2},\d{2}` price token (greedy two-digit shape first),
returning the token and the rest of the line. -/
def takeTok1 : Str → Option (Str × Str)
  | a :: ',' :: d :: e :: r =>
    if isDig a && isDig d && isDig e then some ([a, ',', d, e], r) else none
  | _ => none

/-- See `takeTok1`; the two-digit shape is preferred, as the regex is greedy. -/
def takePriceTok (l : Str) : Option (Str × Str) :=
  match l with
  | a :: b :: ',' :: d :: e :: r =>
    if isDig a && isDig b && isDig d && isDig e then some ([a, b, ',', d, e], r)
    else takeTok1 l
  | _ => takeTok1 l

/-- `\s*` (maximal munch; see the header of this section). -/
def skipWs (l : Str) : Str := l.dropWhile pyWs

/-- Match one literal character. -/
def expectChar (c : Char) : Str → Option Str
  | x :: r => if x = c then some r else none
  | [] => none

/-- Try `PRICE_LINE_RE` anchored at the head of `l`; on success return
capture group 1 (the first price token). -/
def tryPriceAt (l : Str) : Option Str :=
  (takePriceTok l).bind fun p1 =>
  (expectChar '€' (skipWs p1.2)).bind fun r2 =>
  (expectChar '|' (skipWs r2)).bind fun r3 =>
  (takePriceTok (skipWs r3)).bind fun p2 =>
  (expectChar '€' (skipWs p2.2)).bind fun r5 =>
  (expectChar '|' (skipWs r5)).bind fun r6 =>
  (takePriceTok (skipWs r6)).bind fun p3 =>
  (expectChar '€' (skipWs p3.2)).map fun _ => p1.1

/-- `PRICE_LINE_RE.search(line)`: leftmost match, returning group 1. -/
def priceSearch : Str → Option Str
  | [] => none
  | l@(_ :: cs) =>
    match tryPriceAt l with
    | some g => some g
    | none => priceSearch cs

/-- The numeric value of an ASCII digit. -/
def digitVal (c : Char) : ℕ := c.toNat - '0'.toNat

/-- `float(price_match.group(1).replace(",", "."))`, in exact integer cents
(see the file header on the float model).  The wildcard case is unreachable:
`priceSearch` only returns tokens of the two shapes below. -/
def priceOfTok : Str → ℕ
  | [a, b, ',', d, e] =>
    (10 * digitVal a + digitVal b) * 100 + (10 * digitVal d + digitVal e)
  | [a, ',', d, e] => digitVal a * 100 + (10 * digitVal d + digitVal e)
  | _ => 0

example : priceSearch "3,50 € | 4,00 € | 4,50 €".data = some "3,50".data := by decide
example : priceSearch "Nudeln".data = none := by decide
example : priceOfTok "3,50".data = 350 := by decide
example : priceOfTok "1,01".data = 101 := by decide
example : splitlinesPy "Linsen-\nsuppe\n".data = ["Linsen-".data, "suppe".data] := by decide
example : pyStrip "  Soja ".data = "Soja".data := by decide
example : pyLower "SoJA".data = "soja".data := by decide

/-! ## `ALLERGEN_TAIL_RE` — the trailing-parenthetical pattern

`(.*?)\s*(\([0-9,\s\.a-z]+\))\s*$`, used through `re.match` (anchored at the
start) and groups 1/2.  The lazy `(.*?)` means the shortest prefix wins;
once the prefix is fixed the rest is deterministic: `\s*` is maximal munch
(`(` is not whitespace), the bracketed class `+` is maximal munch (`)` is
not in the class), and `\s*$` (no `re.MULTILINE` here, and `\n` is itself
whitespace) holds exactly when the remainder is all whitespace. -/

/-- The character class `[0-9,\s\.a-z]` of `ALLERGEN_TAIL_RE`. -/
def tailClass (c : Char) : Bool :=
  isDig c || c = ',' || pyWs c || c = '.' || isLowerAlpha c

/-- Match `\s*\([0-9,\s\.a-z]+\)\s*$` against all of `l`; on success return
the content between the parentheses. -/
def allergenSuffix (l : Str) : Option Str :=
  match l.dropWhile pyWs with
  | c :: r =>
    if c = '(' then
      let content := r.takeWhile tailClass
      if content.isEmpty then none
      else
        match r.dropWhile tailClass with
        | c2 :: rest =>
          if c2 = ')' ∧ (rest.dropWhile pyWs).isEmpty then some content else none
        | [] => none
    else none
  | [] => none

/-- `ALLERGEN_TAIL_RE.match(t)` for `t = acc.reverse ++ l`: try the lazy
prefix short-to-long; on success return (group 1, the content of group 2
without its parentheses — `group(2).strip("()")` in the source, which is the
same because the class excludes parentheses). -/
def atmAux (acc : Str) : Str → Option (Str × Str)
  | [] => (allergenSuffix []).map fun content => (acc.reverse, content)
  | c :: cs =>
    match allergenSuffix (c :: cs) with
    | some content => some (acc.reverse, content)
    | none => atmAux (c :: acc) cs

/-- `ALLERGEN_TAIL_RE.match(t)` with groups as in `atmAux`. -/
def allergenTailMatch (t : Str) : Option (Str × Str) := atmAux [] t

/-- The allergen-code set built from the group-2 content:
`{code.strip() for code in group2.strip("()").split(",") if code.strip()}`. -/
def codesOfContent (content : Str) : Finset Str :=
  ((splitOnComma content).filterMap fun c =>
    if (pyStrip c).isEmpty then none else some (pyStrip c)).toFinset

/-- Lines 191–196 of the source: split a joined title into the final title
and its allergen-code set. -/
def splitAllergens (t : Str) : Str × Finset Str :=
  match allergenTailMatch t with
  | some (pre, content) => (pyStrip pre, codesOfContent content)
  | none => (t, ∅)

example : splitAllergens "Gulasch mit Spätzle (2,3,8a)".data =
    ("Gulasch mit Spätzle".data, {"2".data, "3".data, "8a".data}) := by decide
example : splitAllergens "Linsen suppe".data = ("Linsen suppe".data, ∅) := by decide
example : splitAllergens "Pasta (abc)".data = ("Pasta".data, {"abc".data}) := by decide

/-! ## The Cell Merger — `MensaParser._merge_table_cells`

The source keeps a dict `{day: list-of-partial-cells}` for the five fixed
weekday columns and scans the table row by row; within a row each day
touches only its own column and its own list, so the dict with its five
fixed keys is modelled as a record with five components, updated
simultaneously per row exactly as in the source. -/

/-- `WEEKDAYS_DE` (day names as strings). -/
def WEEKDAYS_DE : List Str :=
  ["Montag".data, "Dienstag".data, "Mittwoch".data, "Donnerstag".data,
   "Freitag".data, "Samstag".data, "Sonntag".data]

/-- `DISH_COLUMN_INDICES = [4, 8, 12, 16, 20]`. -/
def DISH_COLUMN_INDICES : List ℕ := [4, 8, 12, 16, 20]

/-- `max(DISH_COLUMN_INDICES)`. -/
def maxColIdx : ℕ := DISH_COLUMN_INDICES.foldl Nat.max 0

/-- One entry of `merged_cells[day]`: `{'text': ..., 'has_price': ...}`. -/
structure PartialCell where
  text : Str
  has_price : Bool
  deriving DecidableEq, Repr

/-- One row of the raw matrix: `pdfplumber` cells are `Optional[str]`. -/
abbrev Row := List (Option Str)

/-- The raw matrix of the menu page. -/
abbrev Table := List Row

/-- `any(PRICE_LINE_RE.search(line) for line in cell_text.splitlines())`. -/
def cellHasPrice (t : Str) : Bool :=
  (splitlinesPy t).any fun line => (priceSearch line).isSome

/-- The per-day loop body of `_merge_table_cells` for one cell of one row:
skip empty/blank cells; merge into the trailing cell while it has no price;
otherwise append a fresh cell.  (`row[col_idx]` is the `cell` argument.) -/
def processCell (cells : List PartialCell) (cell : Option Str) : List PartialCell :=
  match cell with
  | none => cells
  | some t =>
    if (pyStrip t).isEmpty then cells
    else
      let hp := cellHasPrice t
      match cells.getLast? with
      | some lastCell =>
        if lastCell.has_price then cells ++ [⟨t, hp⟩]
        else cells.dropLast ++ [⟨lastCell.text ++ '\n' :: t, hp⟩]
      | none => cells ++ [⟨t, hp⟩]

/-- The five per-day lists `merged_cells[day]`, `day` zipped with
`DISH_COLUMN_INDICES` in the order of `WEEKDAYS_DE[:5]`. -/
structure Merged where
  montag : List PartialCell
  dienstag : List PartialCell
  mittwoch : List PartialCell
  donnerstag : List PartialCell
  freitag : List PartialCell
  deriving DecidableEq, Repr

/-- One iteration of the row loop: skip rows too short to address all day
columns (`if not row or len(row) < max(DISH_COLUMN_INDICES) + 1`; an empty
row has length 0 < 21, so `not row` is subsumed), else process the five day
columns.  The length guard puts every `row[col_idx]` in bounds, so `getD`
never takes its default. -/
def processRow (m : Merged) (row : Row) : Merged :=
  if row.length < maxColIdx + 1 then m
  else
    ⟨processCell m.montag (row.getD 4 none),
     processCell m.dienstag (row.getD 8 none),
     processCell m.mittwoch (row.getD 12 none),
     processCell m.donnerstag (row.getD 16 none),
     processCell m.freitag (row.getD 20 none)⟩

/-- `MensaParser._merge_table_cells`. -/
def merge_table_cells (table : Table) : Merged :=
  table.foldl processRow ⟨[], [], [], [], []⟩

/-! ## The Dish Extractor — `MensaParser._parse_dish_from_cell` -/

/-- Is the head character whitespace? -/
def headIsWs : Str → Bool
  | c :: _ => pyWs c
  | [] => false

/-- `re.sub(r'-\s+|\s+', ' ', s)`: each hyphen-plus-whitespace break and
each whitespace run is replaced by a single space, leftmost-first (the two
alternatives are disjoint: `-` is not whitespace).  The flag records being
inside a run whose single `' '` has already been emitted, so the whole
consumed run is skipped — this is the regex's greedy `\s+`. -/
def subDashWsAux : Bool → Str → Str
  | _, [] => []
  | inRun, c :: cs =>
    if pyWs c then
      if inRun then subDashWsAux true cs else ' ' :: subDashWsAux true cs
    else if c = '-' && headIsWs cs then ' ' :: subDashWsAux true cs
    else c :: subDashWsAux false cs

/-- See `subDashWsAux`. -/
def subDashWs (l : Str) : Str := subDashWsAux false l

example : subDashWs "Linsen- suppe".data = "Linsen suppe".data := by decide
example : subDashWs "a   b - c".data = "a b  c".data := by decide

/-- `[line.strip() for line in cell_text.splitlines() if line.strip()]`. -/
def nonBlankLines (cell : Str) : List Str :=
  (splitlinesPy cell).filterMap fun line =>
    if (pyStrip line).isEmpty then none else some (pyStrip line)

/-- The backward scan `for i, line in reversed(list(enumerate(lines)))`
breaking at the first `PRICE_LINE_RE.search` hit: on success return
(`lines[:price_idx]`, group 1 of the match on the last matching line). -/
def findLastPrice : List Str → Option (List Str × Str)
  | [] => none
  | l :: ls =>
    match findLastPrice ls with
    | some (ts, g) => some (l :: ts, g)
    | none =>
      match priceSearch l with
      | some g => some ([], g)
      | none => none

/-- `title_lines = lines[:price_idx] if price_idx != -1 else lines`. -/
def titleLinesOf (lines : List Str) : List Str :=
  match findLastPrice lines with
  | some (ts, _) => ts
  | none => lines

/-- `re.sub(r'-\s+|\s+', ' ', " ".join(title_lines)).strip()`. -/
def fullTitleOf (lines : List Str) : Str :=
  pyStrip (subDashWs (List.intercalate [' '] (titleLinesOf lines)))

/-- The final dish title of a cell's non-blank lines. -/
def dishTitleOf (lines : List Str) : Str := (splitAllergens (fullTitleOf lines)).1

/-- The allergen-code set of a cell's non-blank lines. -/
def dishAllergensOf (lines : List Str) : Finset Str :=
  (splitAllergens (fullTitleOf lines)).2

/-- The `Dish` dataclass.  `price100` is the price in exact integer cents
(see the file header on the float model); `category` is `"main"` or
`"side"` as in the source. -/
structure Dish where
  title : Str
  price100 : ℕ
  category : Str
  allergens : Finset Str
  deriving DecidableEq

/-- The price as the spec's decimal number of euros. -/
def Dish.priceQ (d : Dish) : ℚ := (d.price100 : ℚ) / 100

/-- The filter state a `MensaParser` instance carries:
`config.filter_words` (a set of lowercase substrings, modelled as a list
consumed only through membership and non-emptiness) and the resolved
`filter_allergen_numbers`. -/
structure ParserCtx where
  filter_words : List Str
  filter_allergen_numbers : Finset Str

/-- `MensaParser._parse_dish_from_cell`.  Python evaluates the title even
when no price line was found, but then always returns `None` through the
`price is None` test; returning `none` directly in that branch is the same
function.  The truthiness guards `if self.config.filter_words and ...` and
`if self.filter_allergen_numbers and ...` are the two `≠`-conjuncts. -/
def parse_dish_from_cell (ctx : ParserCtx) (cell : Str) : Option Dish :=
  let lines := nonBlankLines cell
  if lines.isEmpty then none
  else
    match findLastPrice lines with
    | none => none
    | some (_, tok) =>
      let title := dishTitleOf lines
      let allergens := dishAllergensOf lines
      let price := priceOfTok tok
      if title.length < 5 then none
      else if ctx.filter_words ≠ [] ∧
          ∃ w ∈ ctx.filter_words, isSubstr w (pyLower title) = true then none
      else if ctx.filter_allergen_numbers ≠ ∅ ∧
          allergens ∩ ctx.filter_allergen_numbers ≠ ∅ then none
      else some ⟨title, price,
        (if price ≤ 100 then "side".data else "main".data), allergens⟩

example : parse_dish_from_cell ⟨[], ∅⟩ "Nudeln".data = none := by decide
example : parse_dish_from_cell ⟨[], ∅⟩
    "Linsen-\nsuppe\n3,50 € | 4,00 € | 4,50 €".data =
    some ⟨"Linsen suppe".data, 350, "main".data, ∅⟩ := by decide

/-! ## The Legend Resolver — `ALLERGEN_MAP_RE` and the allergen mapping

`ALLERGEN_MAP_RE = (\d+[a-z]?)\s+([A-ZÄÖÜ][^\d\n]+?)(?=\s+\d+[a-z]?|\s*$)`
with `re.MULTILINE`, used through `finditer`.  Determinism notes: `\d+` is
maximal munch (if the following `\s+`/lookahead fails with the maximal run,
a shorter run leaves a digit — never whitespace — in front); `[a-z]?` is
taken greedily and dropping it cannot help (a letter is not whitespace);
`\s+` before the name is maximal munch (the name starts with a
non-whitespace uppercase letter); the lazy `[^\d\n]+?` grows one character
at a time until the lookahead holds.  In the lookahead, `\s+\d+[a-z]?`
holds iff a nonempty whitespace run is followed by a digit, and (with
`re.MULTILINE`) `\s*$` holds iff the rest is all whitespace or the
whitespace run in front contains a `\n` (whitespace includes `\n`). -/

/-- `[A-ZÄÖÜ]`. -/
def isUpperDE (c : Char) : Bool :=
  ('A' ≤ c && c ≤ 'Z') || c = 'Ä' || c = 'Ö' || c = 'Ü'

/-- Is the head character a digit? -/
def headIsDig : Str → Bool
  | c :: _ => isDig c
  | [] => false

/-- The lookahead `(?=\s+\d+[a-z]?|\s*$)` (see the section header). -/
def lookaheadOk (r : Str) : Bool :=
  (!(r.takeWhile pyWs).isEmpty && headIsDig (r.dropWhile pyWs)) ||
  ((r.dropWhile pyWs).isEmpty || (r.takeWhile pyWs).contains '\n')

/-- The lazy tail `[^\d\n]+?(?=...)` of group 2: the shortest nonempty
prefix of characters outside `\d\n` after which the lookahead holds,
together with the rest of the text. -/
def lazyName : Str → Option (Str × Str)
  | [] => none
  | c :: cs =>
    if isDig c || c = '\n' then none
    else if lookaheadOk cs then some ([c], cs)
    else
      match lazyName cs with
      | some (tail, rest) => some (c :: tail, rest)
      | none => none

/-- Try `ALLERGEN_MAP_RE` anchored at the head of `l`: on success return
(group 1, group 2, the rest after the match — the lookahead consumes
nothing). -/
def amTryAt (l : Str) : Option (Str × Str × Str) :=
  let ds := l.takeWhile isDig
  if ds.isEmpty then none
  else
    let r1 := l.dropWhile isDig
    let code := match r1 with
      | c :: _ => if isLowerAlpha c then ds ++ [c] else ds
      | [] => ds
    let r2 := match r1 with
      | c :: cs => if isLowerAlpha c then cs else r1
      | [] => []
    if (r2.takeWhile pyWs).isEmpty then none
    else
      match r2.dropWhile pyWs with
      | u :: r4 =>
        if isUpperDE u then
          match lazyName r4 with
          | some (tail, rest) => some (code, u :: tail, rest)
          | none => none
        else none
      | [] => none

/-- `ALLERGEN_MAP_RE.finditer(text)`: repeatedly take the leftmost match,
continuing after its end.  The fuel is the text length; every step (a match
or a one-character advance) consumes at least one character, so the fuel
never runs out before the scan ends. -/
def findIterAux : ℕ → Str → List (Str × Str)
  | 0, _ => []
  | _, [] => []
  | fuel + 1, l@(_ :: cs) =>
    match amTryAt l with
    | some (code, name, rest) => (code, name) :: findIterAux fuel rest
    | none => findIterAux fuel cs

/-- See `findIterAux`. -/
def findMatches (t : Str) : List (Str × Str) := findIterAux t.length t

example : findMatches "28 Soja 29 Sellerie".data =
    [("28".data, "Soja".data), ("29".data, "Sellerie".data)] := by decide
example : findMatches "1 Soja Bohne 2 Soja".data =
    [("1".data, "Soja Bohne".data), ("2".data, "Soja".data)] := by decide
example : findMatches "12a Weizen\n30 Gluten".data =
    [("12a".data, "Weizen".data), ("30".data, "Gluten".data)] := by decide
example : priceSearch "x 12,00 € | 12,50 € | 13,00 € y".data = some "12,00".data := by decide
example : priceSearch "123,45 € | 1,00 € | 2,00 €".data = some "23,45".data := by decide
example : splitAllergens "A (2) B (3)".data = ("A (2) B".data, {"3".data}) := by decide
example : splitAllergens "A ( 2 )".data = ("A".data, {"2".data}) := by decide

/-- One step of `re.sub(r"\s*\([^)]+\)|:$", "", name)`: try the first
alternative `\s*\([^)]+\)` at the current position; on success return the
rest after the removed match.  (`\s*` is maximal munch as `(` is not
whitespace; `[^)]+` is maximal munch as `)` is excluded from the class.) -/
def tryParen (l : Str) : Option Str :=
  match l.dropWhile pyWs with
  | '(' :: r2 =>
    if (r2.takeWhile fun c => c ≠ ')').isEmpty then none
    else
      match r2.dropWhile fun c => c ≠ ')' with
      | ')' :: rest => some rest
      | _ => none
  | _ => none

/-- `re.sub(r"\s*\([^)]+\)|:$", "", name)`, leftmost-first; the second
alternative `:$` removes a colon at the end (group 2 of `ALLERGEN_MAP_RE`
cannot contain `\n`, and the name was stripped, so `$` is the very end).
The fuel is the string length: every step consumes at least one character. -/
def subParenColonAux : ℕ → Str → Str
  | 0, l => l
  | _, [] => []
  | fuel + 1, l@(c :: cs) =>
    match tryParen l with
    | some rest => subParenColonAux fuel rest
    | none =>
      if c = ':' && cs.isEmpty then subParenColonAux fuel cs
      else c :: subParenColonAux fuel cs

/-- See `subParenColonAux`. -/
def subParenColon (l : Str) : Str := subParenColonAux l.length l

/-- `name_clean`: group 2 is stripped on extraction, then
`re.sub(r"\s*\([^)]+\)|:$", "", name).strip().lower()`. -/
def cleanName (rawName : Str) : Str :=
  pyLower (pyStrip (subParenColon (pyStrip rawName)))

example : cleanName "Soja (Bohne):".data = "soja".data := by decide

/-- `name_clean.split()[0]`: the leading non-whitespace run (the name is
stripped and, where this is called, nonempty). -/
def firstWord (l : Str) : Str := l.takeWhile fun c => !pyWs c

/-- The loop body of `_extract_allergen_mapping` for one regex match:
discard names shorter than 3 characters after cleaning; record
`name_clean → code` and, when it differs, `first_word → code`. -/
def processEntry (m : List (Str × Str)) (e : Str × Str) : List (Str × Str) :=
  let nc := cleanName e.2
  if nc.length < 3 then m
  else
    let m1 := dictInsert m nc e.1
    if firstWord nc ≠ nc then dictInsert m1 (firstWord nc) e.1 else m1

/-- `MensaParser._extract_allergen_mapping`, as a function of the footnote
page's text (the `pdfplumber` call that fetches the last page's text is the
out-of-scope extraction collaborator). -/
def extract_allergen_mapping (footnote : Str) : List (Str × Str) :=
  (findMatches footnote).foldl processEntry []

example : extract_allergen_mapping "28 Soja 29 Sellerie".data =
    [("soja".data, "28".data), ("sellerie".data, "29".data)] := by decide

/-- `MensaParser._resolve_filter_allergens`: look each configured allergen
name up in the mapping; names that are found contribute their code, missing
names only produce a warning.  (The Python `set` result is modelled as a
`Finset`.) -/
def resolve_filter_allergens (names : List Str) (m : List (Str × Str)) : Finset Str :=
  (names.filterMap fun n => alistLookup m n).toFinset

/-- `Config.filter_allergen_names`:
`{name.strip().lower() for name in raw.split(",") if name.strip()}`
(the set modelled as a list; only membership is consumed). -/
def filter_allergen_names (raw : Str) : List Str :=
  (splitOnComma raw).filterMap fun n =>
    if (pyStrip n).isEmpty then none else some (pyLower (pyStrip n))

/-- `MensaParser.__init__`: derive the filter state from the configured
filter words, the configured allergen names and the footnote text. -/
def mkParserCtx (words : List Str) (allergenNames : List Str) (footnote : Str) :
    ParserCtx :=
  ⟨words, resolve_filter_allergens allergenNames (extract_allergen_mapping footnote)⟩

/-! ## The Menu Builder — `MensaParser.get_all_dishes`

The `pdfplumber` interaction is the out-of-scope extraction collaborator;
its outcome is the `pageTable` argument: `none` models a document with too
few pages (`len(pdf.pages) <= MENU_PAGE_INDEX`) or `extract_table()`
returning `None`; `some []` is an extracted empty table (also falsy in
`if not table`).  The Lean function is total: the source raises no
exception on these paths, it logs and returns the empty mapping. -/

/-- `for day, cells in merged_cells.items(): ... append(dish)`: the dishes
of one weekday key.  Only the five merged day columns ever contribute;
every other key (Samstag, Sonntag) keeps its initial `[]`. -/
def dishesForDay (ctx : ParserCtx) (m : Merged) (day : Str) : List Dish :=
  if day = "Montag".data then
    (m.montag.map PartialCell.text).filterMap (parse_dish_from_cell ctx)
  else if day = "Dienstag".data then
    (m.dienstag.map PartialCell.text).filterMap (parse_dish_from_cell ctx)
  else if day = "Mittwoch".data then
    (m.mittwoch.map PartialCell.text).filterMap (parse_dish_from_cell ctx)
  else if day = "Donnerstag".data then
    (m.donnerstag.map PartialCell.text).filterMap (parse_dish_from_cell ctx)
  else if day = "Freitag".data then
    (m.freitag.map PartialCell.text).filterMap (parse_dish_from_cell ctx)
  else []

/-- `MensaParser.get_all_dishes`: the insertion-ordered dict
`{day: [] for day in WEEKDAYS_DE}` filled per merged day column, as an
insertion-ordered association list. -/
def get_all_dishes (ctx : ParserCtx) (pageTable : Option Table) :
    List (Str × List Dish) :=
  match pageTable with
  | none => WEEKDAYS_DE.map fun d => (d, [])
  | some table =>
    if table.isEmpty then WEEKDAYS_DE.map fun d => (d, [])
    else
      WEEKDAYS_DE.map fun d => (d, dishesForDay ctx (merge_table_cells table) d)

/-! ## Concrete inputs used by the claims -/

/-- A 21-column row (the minimum that addresses all day columns) whose only
populated cell is the Monday column, index 4. -/
def mkDayRow (t : Str) : Row :=
  [none, none, none, none, some t,
   none, none, none, none, none, none, none, none, none, none, none,
   none, none, none, none, none]

/-- A parser with no configured filters. -/
def ctxNoFilter : ParserCtx := ⟨[], ∅⟩

/-- The end-to-end hyphenation scenario's matrix: one Monday row whose cell
is the two title lines `Linsen-` / `suppe` and a price line. -/
def tblLinsensuppe : Table :=
  [mkDayRow "Linsen-\nsuppe\n3,50 € | 4,00 € | 4,50 €".data]

/-- The merge scenario's matrix: three Monday rows
`["Suppe", price line, "Nudeln"]`. -/
def tblSuppeNudeln : Table :=
  [mkDayRow "Suppe".data,
   mkDayRow "12,00 € | 12,50 € | 13,00 €".data,
   mkDayRow "Nudeln".data]

/-- The all-empty 7-day mapping. -/
def emptyWeek : List (Str × List Dish) :=
  [("Montag".data, []), ("Dienstag".data, []), ("Mittwoch".data, []),
   ("Donnerstag".data, []), ("Freitag".data, []), ("Samstag".data, []),
   ("Sonntag".data, [])]

/-! ## The claims -/

/-- C1, counterexample: on the claimed matrix the Menu Builder does produce
exactly one Monday dish with price 3.50 (`price100 = 350`), category
`main` and no allergens — but its title is `"Linsen suppe"`, not
`"Linsensuppe"`: `re.sub(r'-\s+|\s+', ' ', ...)` replaces the
hyphen-plus-break with a single space instead of joining the broken word,
so the claim as stated is false at this input. -/
theorem C1_counterexample :
    alistLookup (get_all_dishes ctxNoFilter (some tblLinsensuppe)) "Montag".data =
      some [⟨"Linsen suppe".data, 350, "main".data, ∅⟩] ∧
    alistLookup (get_all_dishes ctxNoFilter (some tblLinsensuppe)) "Montag".data ≠
      some [⟨"Linsensuppe".data, 350, "main".data, ∅⟩] := by
  exact ⟨by decide, by decide⟩

/-- C1, amended: for the matrix with one Monday row whose cell text is the
title lines `"Linsen-"`, `"suppe"` followed by the price line
`"3,50 € | 4,00 € | 4,50 €"`, the Menu Builder produces exactly one Monday
dish with title `"Linsen suppe"` (the trailing hyphen is removed and the
break collapses to a single space), price 3.50 (350 cents, i.e. 7/2 euros),
category `main` and an empty allergen set; every other day is empty. -/
theorem C1_amended_end_to_end :
    get_all_dishes ctxNoFilter (some tblLinsensuppe) =
      [("Montag".data, [⟨"Linsen suppe".data, 350, "main".data, ∅⟩]),
       ("Dienstag".data, []), ("Mittwoch".data, []), ("Donnerstag".data, []),
       ("Freitag".data, []), ("Samstag".data, []), ("Sonntag".data, [])] ∧
    (⟨"Linsen suppe".data, 350, "main".data, ∅⟩ : Dish).priceQ = 7 / 2 := by
  refine ⟨by decide, ?_⟩
  norm_num [Dish.priceQ]

/-- C2: for a day's row sequence of the three non-empty Monday cells
`["Suppe", "12,00 € | 12,50 € | 13,00 €", "Nudeln"]` the Cell Merger yields
exactly two completed cells in order: `"Suppe"` newline-joined with the
price line (`has_price = true`), then `"Nudeln"` (`has_price = false`) —
the price-bearing cell closes immediately and the later non-price cell
starts a new cell instead of merging into it. -/
theorem C2_merge_scenario :
    merge_table_cells tblSuppeNudeln =
      ⟨[⟨"Suppe\n12,00 € | 12,50 € | 13,00 €".data, true⟩,
        ⟨"Nudeln".data, false⟩], [], [], [], []⟩ := by
  decide

/-- C5: if the menu page is absent (the document has too few pages, or
`extract_table` yields nothing — `pageTable = none`) or the extracted table
is empty (`some []`), the Menu Builder returns the all-empty 7-day mapping;
being a total Lean function, it raises no exception on these paths. -/
theorem C5_graceful_degradation (ctx : ParserCtx) :
    get_all_dishes ctx none = emptyWeek ∧
    get_all_dishes ctx (some []) = emptyWeek :=
  ⟨rfl, rfl⟩

/-- C6: for every input table (and any filter configuration and footnote,
which the `ParserCtx` summarises), the Menu Builder's mapping has exactly
the 7 weekday keys Monday through Sunday in order, and the Saturday and
Sunday entries are always empty — dishes are only appended under the five
Monday–Friday day columns. -/
theorem C6_totality (ctx : ParserCtx) (pageTable : Option Table) :
    (get_all_dishes ctx pageTable).map Prod.fst = WEEKDAYS_DE ∧
    alistLookup (get_all_dishes ctx pageTable) "Samstag".data = some [] ∧
    alistLookup (get_all_dishes ctx pageTable) "Sonntag".data = some [] := by
  match pageTable with
  | none => exact ⟨rfl, rfl, rfl⟩
  | some [] => exact ⟨rfl, rfl, rfl⟩
  | some (r :: rs) => exact ⟨rfl, rfl, rfl⟩

/-- `Dish.priceQ d ≤ 1` euro is exactly `price100 ≤ 100` cents. -/
lemma priceQ_le_one_iff (d : Dish) : d.priceQ ≤ 1 ↔ d.price100 ≤ 100 := by
  unfold Dish.priceQ
  rw [div_le_one (by norm_num : (0 : ℚ) < 100)]
  exact_mod_cast Iff.rfl

/-- C9: every Dish the extractor produces has category `"side"` exactly
when its price is at most 1.00 € (`priceQ ≤ 1`), and `"main"` otherwise. -/
theorem C9_category_boundary (ctx : ParserCtx) (cell : Str) (d : Dish)
    (h : parse_dish_from_cell ctx cell = some d) :
    d.category = "side".data ↔ d.priceQ ≤ 1 := by
  rw [priceQ_le_one_iff]
  simp only [parse_dish_from_cell] at h
  split at h
  · exact absurd h (by simp)
  · split at h
    · exact absurd h (by simp)
    · split at h
      · exact absurd h (by simp)
      · split at h
        · exact absurd h (by simp)
        · split at h
          · exact absurd h (by simp)
          · rw [Option.some_inj] at h
            subst h
            dsimp only
            split
            · rename_i hle
              exact iff_of_true rfl hle
            · rename_i hgt
              exact iff_of_false (by decide) hgt

/-- C9, witness: a parsed price of exactly 1.00 gives category `side`, and
1.01 gives `main`; the boundary iff instantiated at both dishes. -/
theorem C9_category_witness :
    (parse_dish_from_cell ctxNoFilter "Nudelauflauf\n1,00 € | 1,10 € | 1,20 €".data =
        some ⟨"Nudelauflauf".data, 100, "side".data, ∅⟩ ∧
      ((⟨"Nudelauflauf".data, 100, "side".data, ∅⟩ : Dish).category = "side".data ↔
        (⟨"Nudelauflauf".data, 100, "side".data, ∅⟩ : Dish).priceQ ≤ 1)) ∧
    (parse_dish_from_cell ctxNoFilter "Kartoffelpüree\n1,01 € | 1,11 € | 1,21 €".data =
        some ⟨"Kartoffelpüree".data, 101, "main".data, ∅⟩ ∧
      ((⟨"Kartoffelpüree".data, 101, "main".data, ∅⟩ : Dish).category = "side".data ↔
        (⟨"Kartoffelpüree".data, 101, "main".data, ∅⟩ : Dish).priceQ ≤ 1)) :=
  ⟨⟨by decide, C9_category_boundary ctxNoFilter
      "Nudelauflauf\n1,00 € | 1,10 € | 1,20 €".data
      ⟨"Nudelauflauf".data, 100, "side".data, ∅⟩ (by decide)⟩,
   ⟨by decide, C9_category_boundary ctxNoFilter
      "Kartoffelpüree\n1,01 € | 1,11 € | 1,21 €".data
      ⟨"Kartoffelpüree".data, 101, "main".data, ∅⟩ (by decide)⟩⟩

/-! ## C3 — stickiness of `has_price`

The spec describes the merge step as OR-ing `has_price`; the source assigns
the fresh flag outright.  `processCellOrSpec` is the spec's wording (the
clearly-named second definition of the refinement claim); the claim is that
it coincides with the source's `processCell` because merging only happens
while the open cell's flag is still false. -/

/-- `processCell` with the spec's wording of the merge step:
`has_price := old OR new`. -/
def processCellOrSpec (cells : List PartialCell) (cell : Option Str) :
    List PartialCell :=
  match cell with
  | none => cells
  | some t =>
    if (pyStrip t).isEmpty then cells
    else
      let hp := cellHasPrice t
      match cells.getLast? with
      | some lastCell =>
        if lastCell.has_price then cells ++ [⟨t, hp⟩]
        else cells.dropLast ++
          [⟨lastCell.text ++ '\n' :: t, lastCell.has_price || hp⟩]
      | none => cells ++ [⟨t, hp⟩]

/-- `processRow` over the spec's merge step. -/
def processRowOrSpec (m : Merged) (row : Row) : Merged :=
  if row.length < maxColIdx + 1 then m
  else
    ⟨processCellOrSpec m.montag (row.getD 4 none),
     processCellOrSpec m.dienstag (row.getD 8 none),
     processCellOrSpec m.mittwoch (row.getD 12 none),
     processCellOrSpec m.donnerstag (row.getD 16 none),
     processCellOrSpec m.freitag (row.getD 20 none)⟩

/-- `merge_table_cells` over the spec's merge step. -/
def merge_table_cellsOrSpec (table : Table) : Merged :=
  table.foldl processRowOrSpec ⟨[], [], [], [], []⟩

lemma processCellOrSpec_eq (cells : List PartialCell) (cell : Option Str) :
    processCellOrSpec cells cell = processCell cells cell := by
  unfold processCellOrSpec processCell
  cases cell with
  | none => rfl
  | some t =>
    split
    · rfl
    · cases hl : cells.getLast? with
      | none => rfl
      | some lastCell =>
        cases hb : lastCell.has_price <;> simp [hb]

lemma processRowOrSpec_eq (m : Merged) (row : Row) :
    processRowOrSpec m row = processRow m row := by
  unfold processRowOrSpec processRow
  split
  · rfl
  · simp only [processCellOrSpec_eq]

/-- All emitted cells of a day column except possibly the trailing open one
are price-complete. -/
def ClosedButLast (cs : List PartialCell) : Prop :=
  ∀ c ∈ cs.dropLast, c.has_price = true

lemma closedButLast_concat (cs : List PartialCell) (x : PartialCell)
    (hall : ∀ c ∈ cs, c.has_price = true) : ClosedButLast (cs ++ [x]) := by
  intro c hc
  rw [List.dropLast_concat] at hc
  exact hall c hc

lemma closedButLast_dropLast_concat (cs : List PartialCell) (x : PartialCell)
    (h : ClosedButLast cs) : ClosedButLast (cs.dropLast ++ [x]) := by
  intro c hc
  rw [List.dropLast_concat] at hc
  exact h c hc

/-- When the trailing cell already has a price, every cell of the list is
price-complete. -/
lemma all_closed_of_last_true (cs : List PartialCell) (lastCell : PartialCell)
    (hl : cs.getLast? = some lastCell) (hb : lastCell.has_price = true)
    (h : ClosedButLast cs) : ∀ c ∈ cs, c.has_price = true := by
  obtain ⟨ys, rfl⟩ := List.getLast?_eq_some_iff.mp hl
  intro c hc
  rcases List.mem_append.mp hc with hy | hy
  · exact h c (by rw [List.dropLast_concat]; exact hy)
  · rw [List.mem_singleton.mp hy]
    exact hb

lemma processCell_inv (cs : List PartialCell) (cell : Option Str)
    (h : ClosedButLast cs) : ClosedButLast (processCell cs cell) := by
  cases cell with
  | none => exact h
  | some t =>
    unfold processCell
    dsimp only
    by_cases hs : (pyStrip t).isEmpty = true
    · rw [if_pos hs]
      exact h
    · rw [if_neg hs]
      cases hlast : cs.getLast? with
      | none =>
        have hcs : cs = [] := List.getLast?_eq_none_iff.mp hlast
        subst hcs
        intro c hc
        simp at hc
      | some lastCell =>
        simp only [hlast]
        cases hb : lastCell.has_price with
        | true =>
          rw [if_pos rfl]
          exact closedButLast_concat cs _
            (all_closed_of_last_true cs lastCell hlast hb h)
        | false =>
          rw [if_neg Bool.false_ne_true]
          exact closedButLast_dropLast_concat cs _ h

/-- The per-day invariant over the whole merged state. -/
def MergedInv (m : Merged) : Prop :=
  ClosedButLast m.montag ∧ ClosedButLast m.dienstag ∧ ClosedButLast m.mittwoch ∧
  ClosedButLast m.donnerstag ∧ ClosedButLast m.freitag

lemma processRow_inv (m : Merged) (row : Row) (h : MergedInv m) :
    MergedInv (processRow m row) := by
  unfold processRow
  split
  · exact h
  · exact ⟨processCell_inv _ _ h.1, processCell_inv _ _ h.2.1,
      processCell_inv _ _ h.2.2.1, processCell_inv _ _ h.2.2.2.1,
      processCell_inv _ _ h.2.2.2.2⟩

lemma foldl_processRow_inv (rows : Table) :
    ∀ m : Merged, MergedInv m → MergedInv (rows.foldl processRow m) := by
  induction rows with
  | nil => exact fun m h => h
  | cons r rs ih =>
    intro m h
    rw [List.foldl_cons]
    exact ih _ (processRow_inv m r h)

lemma foldl_processRowOrSpec_eq (rows : Table) :
    ∀ m : Merged, rows.foldl processRowOrSpec m = rows.foldl processRow m := by
  induction rows with
  | nil => exact fun m => rfl
  | cons r rs ih =>
    intro m
    rw [List.foldl_cons, List.foldl_cons, processRowOrSpec_eq, ih]

/-- C3: throughout the Cell Merger's scan, each day column has at most one
open cell — in the emitted per-day lists every cell except possibly the
last has `has_price = true` (every prefix of a table is a table, so this
covers every intermediate state of the scan) — and replacing the merge
branch's plain assignment of `has_price` by the OR of old and new flag (the
spec's wording, `merge_table_cellsOrSpec`) yields the same merger on every
table, because merging only happens when the old flag is false. -/
theorem C3_sticky_has_price (table : Table) :
    (∀ cells ∈ [(merge_table_cells table).montag,
        (merge_table_cells table).dienstag, (merge_table_cells table).mittwoch,
        (merge_table_cells table).donnerstag, (merge_table_cells table).freitag],
      ∀ c ∈ cells.dropLast, c.has_price = true) ∧
    merge_table_cellsOrSpec table = merge_table_cells table := by
  constructor
  · have hinv : MergedInv (merge_table_cells table) :=
      foldl_processRow_inv table _ ⟨by simp [ClosedButLast], by simp [ClosedButLast],
        by simp [ClosedButLast], by simp [ClosedButLast], by simp [ClosedButLast]⟩
    intro cells hc
    simp only [List.mem_cons, List.not_mem_nil, or_false] at hc
    rcases hc with rfl | rfl | rfl | rfl | rfl
    · exact hinv.1
    · exact hinv.2.1
    · exact hinv.2.2.1
    · exact hinv.2.2.2.1
    · exact hinv.2.2.2.2
  · exact foldl_processRowOrSpec_eq table _

/-- C3, witness: instantiated at the three-row Monday table — the OR-step
merger agrees with the source's, and the first (non-final) emitted Monday
cell indeed carries `has_price = true`. -/
theorem C3_sticky_witness :
    merge_table_cellsOrSpec tblSuppeNudeln = merge_table_cells tblSuppeNudeln ∧
    (⟨"Suppe\n12,00 € | 12,50 € | 13,00 €".data, true⟩ : PartialCell).has_price
      = true :=
  ⟨(C3_sticky_has_price tblSuppeNudeln).2,
   (C3_sticky_has_price tblSuppeNudeln).1
     [⟨"Suppe\n12,00 € | 12,50 € | 13,00 €".data, true⟩, ⟨"Nudeln".data, false⟩]
     (by decide) _ (by decide)⟩

/-- C10: two raw matrices with the same number of rows, corresponding rows
of the same length agreeing on the five fixed day columns 4, 8, 12, 16, 20,
produce the same merged state and the same final dish mapping — no other
column ever influences the output. -/
theorem C10_noninterference (ctx : ParserCtx) (t1 t2 : Table)
    (h : List.Forall₂ (fun r1 r2 : Row => r1.length = r2.length ∧
      ∀ c ∈ DISH_COLUMN_INDICES, r1.getD c none = r2.getD c none) t1 t2) :
    merge_table_cells t1 = merge_table_cells t2 ∧
    get_all_dishes ctx (some t1) = get_all_dishes ctx (some t2) := by
  have hfold : ∀ m : Merged, t1.foldl processRow m = t2.foldl processRow m := by
    induction h with
    | nil => exact fun m => rfl
    | cons hr htail ih =>
      rename_i a b l1 l2
      intro m
      rw [List.foldl_cons, List.foldl_cons]
      have hrow : processRow m a = processRow m b := by
        unfold processRow
        rw [hr.1, hr.2 4 (by decide), hr.2 8 (by decide), hr.2 12 (by decide),
          hr.2 16 (by decide), hr.2 20 (by decide)]
      rw [hrow]
      exact ih _
  have hmerge : merge_table_cells t1 = merge_table_cells t2 := hfold _
  refine ⟨hmerge, ?_⟩
  have hE : t1.isEmpty = t2.isEmpty := by
    cases h with
    | nil => rfl
    | cons _ _ => rfl
  simp only [get_all_dishes, hE, hmerge]

/-- C10, witness: two one-row tables that differ only in column 0 (an index
outside the day columns) merge and parse identically. -/
theorem C10_noninterference_witness :
    merge_table_cells [[some "ignored".data, none, none, none,
        some "Suppe mit Brot\n1,50 € | 1,60 € | 1,70 €".data,
        none, none, none, none, none, none, none, none, none, none, none,
        none, none, none, none, none]] =
      merge_table_cells [[none, none, none, none,
        some "Suppe mit Brot\n1,50 € | 1,60 € | 1,70 €".data,
        none, none, none, none, none, none, none, none, none, none, none,
        none, none, none, none, none]] ∧
    get_all_dishes ctxNoFilter (some [[some "ignored".data, none, none, none,
        some "Suppe mit Brot\n1,50 € | 1,60 € | 1,70 €".data,
        none, none, none, none, none, none, none, none, none, none, none,
        none, none, none, none, none]]) =
      get_all_dishes ctxNoFilter (some [[none, none, none, none,
        some "Suppe mit Brot\n1,50 € | 1,60 € | 1,70 €".data,
        none, none, none, none, none, none, none, none, none, none, none,
        none, none, none, none, none]]) :=
  C10_noninterference ctxNoFilter _ _
    (List.Forall₂.cons ⟨rfl, by decide⟩ List.Forall₂.nil)

/-! ## C8 — the rejection rules of the Dish Extractor -/

/-- The backward price scan finds nothing exactly when no line matches the
price-line pattern. -/
lemma findLastPrice_eq_none_iff (lines : List Str) :
    findLastPrice lines = none ↔ ∀ l ∈ lines, priceSearch l = none := by
  induction lines with
  | nil => simp [findLastPrice]
  | cons x xs ih =>
    cases hfp : findLastPrice xs with
    | some p =>
      obtain ⟨ts, g⟩ := p
      simp only [findLastPrice, hfp]
      constructor
      · intro hx
        exact absurd hx (by simp)
      · intro hall
        have hn : findLastPrice xs = none :=
          ih.mpr fun l hl => hall l (List.mem_cons_of_mem x hl)
        rw [hn] at hfp
        cases hfp
    | none =>
      cases hps : priceSearch x with
      | some g =>
        simp only [findLastPrice, hfp, hps]
        constructor
        · intro hx
          exact absurd hx (by simp)
        · intro hall
          have := hall x (List.mem_cons_self x xs)
          rw [this] at hps
          cases hps
      | none =>
        simp only [findLastPrice, hfp, hps]
        constructor
        · intro _ l hl
          rcases List.mem_cons.mp hl with rfl | hl2
          · exact hps
          · exact ih.mp hfp l hl2
        · intro _
          trivial

/-- C8: for every cell text with at least one non-blank line, the Dish
Extractor silently returns no Dish exactly when at least one rejection rule
fires: no line matches the price-line pattern, or the final title after
trimming is shorter than 5 characters, or some configured filter word is a
substring of the lowercased title, or the dish's allergen codes intersect
the resolved filter-code set.  (The source's truthiness guards
`if self.config.filter_words and ...` / `if self.filter_allergen_numbers
and ...` add nothing: an existing witness word makes the word list
nonempty, and a nonempty intersection makes the code set nonempty.) -/
theorem C8_rejection_iff (ctx : ParserCtx) (cell : Str)
    (h : nonBlankLines cell ≠ []) :
    parse_dish_from_cell ctx cell = none ↔
      (∀ l ∈ nonBlankLines cell, priceSearch l = none) ∨
      (dishTitleOf (nonBlankLines cell)).length < 5 ∨
      (∃ w ∈ ctx.filter_words,
        isSubstr w (pyLower (dishTitleOf (nonBlankLines cell))) = true) ∨
      dishAllergensOf (nonBlankLines cell) ∩ ctx.filter_allergen_numbers ≠ ∅ := by
  rw [← findLastPrice_eq_none_iff]
  simp only [parse_dish_from_cell]
  rw [if_neg (by simpa using h)]
  cases hfp : findLastPrice (nonBlankLines cell) with
  | none => simp [hfp]
  | some p =>
    obtain ⟨ts, tok⟩ := p
    simp only []
    by_cases h5 : (dishTitleOf (nonBlankLines cell)).length < 5
    · rw [if_pos h5]
      simp [h5]
    · rw [if_neg h5]
      by_cases hw : ctx.filter_words ≠ [] ∧ ∃ w ∈ ctx.filter_words,
          isSubstr w (pyLower (dishTitleOf (nonBlankLines cell))) = true
      · rw [if_pos hw]
        simp [hw.2]
      · rw [if_neg hw]
        by_cases ha : ctx.filter_allergen_numbers ≠ ∅ ∧
            dishAllergensOf (nonBlankLines cell) ∩ ctx.filter_allergen_numbers ≠ ∅
        · rw [if_pos ha]
          simp [ha.2]
        · rw [if_neg ha]
          constructor
          · intro hx
            exact absurd hx (by simp)
          · intro hdisj
            rcases hdisj with h1 | h2 | h3 | h4
            · exact absurd h1 (by simp)
            · exact absurd h2 h5
            · obtain ⟨w, hw1, hw2⟩ := h3
              exact absurd ⟨List.ne_nil_of_mem hw1, ⟨w, hw1, hw2⟩⟩ hw
            · refine absurd ⟨?_, h4⟩ ha
              intro hempty
              rw [hempty, Finset.inter_empty] at h4
              exact h4 rfl

/-- C8, witness: the cell whose only content is `"Nudeln"` has a non-blank
line, the rejection iff holds there, and it indeed yields no Dish (its
single line matches no price pattern). -/
theorem C8_rejection_witness :
    nonBlankLines "Nudeln".data ≠ [] ∧
    parse_dish_from_cell ctxNoFilter "Nudeln".data = none ∧
    (parse_dish_from_cell ctxNoFilter "Nudeln".data = none ↔
      (∀ l ∈ nonBlankLines "Nudeln".data, priceSearch l = none) ∨
      (dishTitleOf (nonBlankLines "Nudeln".data)).length < 5 ∨
      (∃ w ∈ ctxNoFilter.filter_words,
        isSubstr w (pyLower (dishTitleOf (nonBlankLines "Nudeln".data))) = true) ∨
      dishAllergensOf (nonBlankLines "Nudeln".data) ∩
        ctxNoFilter.filter_allergen_numbers ≠ ∅) :=
  ⟨by decide, by decide,
   C8_rejection_iff ctxNoFilter "Nudeln".data (by decide)⟩

/-! ## C4 — when does the Dish Extractor split off a trailing parenthetical?

The claim describes the trailing group as comma-separated tokens, each
digits optionally followed by one lowercase letter
(`specHasAllergenTailB`, modelled from the spec's words); the source's
`ALLERGEN_TAIL_RE` in fact accepts any nonempty parenthesized run over the
class `[0-9,\s\.a-z]` (`HasTrailingParenGroup`). -/

/-- Modelled from the spec's words: one "short alphanumeric token (digits
optionally followed by a lowercase letter)". -/
def specCodeTok (t : Str) : Bool :=
  !(t.takeWhile isDig).isEmpty &&
    (match t.dropWhile isDig with
     | [] => true
     | [c] => isLowerAlpha c
     | _ => false)

/-- Modelled from the spec's words: does this suffix consist of a `(...)`
group of comma-separated `specCodeTok` tokens reaching the very end? -/
def specTailAt (s : Str) : Bool :=
  match s with
  | '(' :: r =>
    match r.reverse with
    | ')' :: revc => (splitOnComma revc.reverse).all specCodeTok
    | _ => false
  | _ => false

/-- Modelled from the spec's words ("the joined title ends with a `(...)`
group of comma-separated short alphanumeric tokens"): some suffix of the
title is such a group. -/
def specHasAllergenTailB : Str → Bool
  | [] => false
  | l@(_ :: rest) => specTailAt l || specHasAllergenTailB rest

/-- What `ALLERGEN_TAIL_RE` actually accepts: a trailing parenthesized
nonempty run of characters from the class `[0-9,\s\.a-z]`, followed only by
whitespace. -/
def HasTrailingParenGroup (t : Str) : Prop :=
  ∃ p c w, t = p ++ '(' :: (c ++ ')' :: w) ∧ c ≠ [] ∧
    (∀ ch ∈ c, tailClass ch = true) ∧ (∀ ch ∈ w, pyWs ch = true)

/-- C4, counterexample: on the joined title `"Pasta (abc)"` the extractor
does split off a trailing parenthetical — yielding title `"Pasta"` and
allergen set `{"abc"}` — although `"(abc)"` is not a group of
comma-separated digits-plus-optional-letter tokens; the claimed
"exactly when" is false at this input (and its "keeps its full text with an
empty allergen set" clause fails with it). -/
theorem C4_counterexample :
    (allergenTailMatch "Pasta (abc)".data).isSome = true ∧
    specHasAllergenTailB "Pasta (abc)".data = false ∧
    splitAllergens "Pasta (abc)".data = ("Pasta".data, {"abc".data}) := by
  exact ⟨by decide, by decide, by decide⟩

lemma takeWhile_append_cons_false {p : Char → Bool} (xs : Str) (y : Char)
    (ys : Str) (hxs : ∀ x ∈ xs, p x = true) (hy : p y = false) :
    (xs ++ y :: ys).takeWhile p = xs ∧ (xs ++ y :: ys).dropWhile p = y :: ys := by
  induction xs with
  | nil => simp [List.takeWhile_cons, List.dropWhile_cons, hy]
  | cons a as ih =>
    have hpa : p a = true := hxs a (List.mem_cons_self a as)
    have hrest := ih fun x hx => hxs x (List.mem_cons_of_mem a hx)
    simp [List.takeWhile_cons, List.dropWhile_cons, hpa, hrest.1, hrest.2]

/-- Soundness of the suffix matcher: a match decomposes the suffix. -/
lemma allergenSuffix_sound (l content : Str)
    (h : allergenSuffix l = some content) :
    ∃ w1 w2, l = w1 ++ '(' :: (content ++ ')' :: w2) ∧ content ≠ [] ∧
      (∀ ch ∈ content, tailClass ch = true) ∧
      (∀ ch ∈ w2, pyWs ch = true) := by
  unfold allergenSuffix at h
  split at h
  · rename_i ch0 r hd
    split at h
    · rename_i hpar
      subst hpar
      by_cases hemp : (r.takeWhile tailClass).isEmpty
      · rw [if_pos hemp] at h
        cases h
      · rw [if_neg hemp] at h
        split at h
        · rename_i c2 rest hdrop
          split at h
          · rename_i hcond
            obtain ⟨hc2, hws⟩ := hcond
            subst hc2
            rw [Option.some_inj] at h
            subst h
            have h2 : r = r.takeWhile tailClass ++ ')' :: rest := by
              conv_lhs => rw [← List.takeWhile_append_dropWhile tailClass r]
              rw [hdrop]
            refine ⟨l.takeWhile pyWs, rest, ?_, by simpa using hemp,
              fun ch hch => List.mem_takeWhile_imp hch,
              List.dropWhile_eq_nil_iff.mp (by simpa using hws)⟩
            conv_lhs => rw [← List.takeWhile_append_dropWhile pyWs l, hd, h2]
          · cases h
        · cases h
    · cases h
  · cases h

/-- Completeness of the suffix matcher: a well-formed trailing group is
matched, with the in-parentheses run as the content. -/
lemma allergenSuffix_complete (c w : Str) (hc : c ≠ [])
    (hcall : ∀ ch ∈ c, tailClass ch = true) (hw : ∀ ch ∈ w, pyWs ch = true) :
    allergenSuffix ('(' :: (c ++ ')' :: w)) = some c := by
  obtain ⟨htake, hdrop⟩ := takeWhile_append_cons_false c ')' w hcall (by decide)
  unfold allergenSuffix
  rw [List.dropWhile_cons, if_neg (by decide)]
  dsimp only
  rw [if_pos rfl, htake, hdrop]
  rw [if_neg (by simpa using hc)]
  dsimp only
  rw [if_pos ⟨rfl, by simpa using List.dropWhile_eq_nil_iff.mpr hw⟩]

/-- The one-step unfolding of `atmAux` on a nonempty string. -/
lemma atmAux_cons_eq (acc : Str) (c : Char) (cs : Str) :
    atmAux acc (c :: cs) =
      (match allergenSuffix (c :: cs) with
       | some content => some (acc.reverse, content)
       | none => atmAux (c :: acc) cs) := rfl

/-- The lazy scan succeeds exactly when some split point admits a suffix
match (the regex's lazy `(.*?)` tries the split points short-to-long). -/
lemma atmAux_isSome_iff (l : Str) : ∀ acc : Str, (atmAux acc l).isSome = true ↔
    ∃ p q : Str, l = p ++ q ∧ (allergenSuffix q).isSome = true := by
  induction l with
  | nil =>
    intro acc
    have hnil : atmAux acc [] = none := rfl
    constructor
    · intro h
      rw [hnil] at h
      exact absurd h (by decide)
    · rintro ⟨p, q, hpq, hq⟩
      obtain ⟨rfl, rfl⟩ := List.append_eq_nil.mp hpq.symm
      exact absurd hq (by decide)
  | cons c cs ih =>
    intro acc
    cases hs : allergenSuffix (c :: cs) with
    | some content =>
      rw [atmAux_cons_eq acc c cs, hs]
      exact iff_of_true rfl ⟨[], c :: cs, rfl, by rw [hs]; rfl⟩
    | none =>
      rw [atmAux_cons_eq acc c cs, hs]
      rw [ih (c :: acc)]
      constructor
      · rintro ⟨p, q, rfl, hq⟩
        exact ⟨c :: p, q, rfl, hq⟩
      · rintro ⟨p, q, hpq, hq⟩
        cases p with
        | nil =>
          rw [List.nil_append] at hpq
          rw [← hpq, hs] at hq
          exact absurd hq (by decide)
        | cons p0 ps =>
          rw [List.cons_append] at hpq
          injection hpq with hc hcs
          exact ⟨ps, q, hcs, hq⟩

/-- C4, amended: the Dish Extractor splits off a trailing parenthetical as
the dish's allergen codes exactly when the joined title contains a `(...)`
group of characters from the class digits/comma/whitespace/period/lowercase
that is followed only by whitespace (the codes being the comma-split,
trimmed pieces); the title `"Gulasch mit Spätzle (2,3,8a)"` still yields
title `"Gulasch mit Spätzle"` and codes `{2, 3, 8a}`, and a title with no
match keeps its full text with an empty allergen set. -/
theorem C4_amended_allergen_tail :
    (∀ t : Str, (allergenTailMatch t).isSome = true ↔ HasTrailingParenGroup t) ∧
    splitAllergens "Gulasch mit Spätzle (2,3,8a)".data =
      ("Gulasch mit Spätzle".data, {"2".data, "3".data, "8a".data}) ∧
    (∀ t : Str, allergenTailMatch t = none → splitAllergens t = (t, ∅)) := by
  refine ⟨?_, by decide, ?_⟩
  · intro t
    unfold allergenTailMatch
    rw [atmAux_isSome_iff t []]
    constructor
    · rintro ⟨p, q, rfl, hq⟩
      obtain ⟨content, hcont⟩ := Option.isSome_iff_exists.mp hq
      obtain ⟨w1, w2, hq2, hcne, hcall, hwall⟩ :=
        allergenSuffix_sound q content hcont
      exact ⟨p ++ w1, content, w2, by rw [hq2, List.append_assoc], hcne,
        hcall, hwall⟩
    · rintro ⟨p, c, w, rfl, hcne, hcall, hwall⟩
      exact ⟨p, '(' :: (c ++ ')' :: w), rfl,
        by rw [allergenSuffix_complete c w hcne hcall hwall]; rfl⟩
  · intro t ht
    simp [splitAllergens, ht]

/-- C4, witness: the iff instantiated at the Gulasch title, and a title
with no trailing group (`"Nudelsalat"`) keeping its text with no codes. -/
theorem C4_amended_witness :
    ((allergenTailMatch "Gulasch mit Spätzle (2,3,8a)".data).isSome = true ↔
      HasTrailingParenGroup "Gulasch mit Spätzle (2,3,8a)".data) ∧
    splitAllergens "Nudelsalat".data = ("Nudelsalat".data, ∅) :=
  ⟨C4_amended_allergen_tail.1 "Gulasch mit Spätzle (2,3,8a)".data,
   C4_amended_allergen_tail.2.2 "Nudelsalat".data (by decide)⟩

/-! ## C7 — legend resolution -/

/-- `dict` lookup right after `m[k] = v` yields `v`. -/
lemma alistLookup_dictInsert_self (m : List (Str × Str)) (k v : Str) :
    alistLookup (dictInsert m k v) k = some v := by
  induction m with
  | nil => simp [dictInsert, alistLookup]
  | cons p rest ih =>
    obtain ⟨k0, v0⟩ := p
    by_cases hk : k0 = k
    · subst hk
      simp [dictInsert, alistLookup]
    · simp [dictInsert, alistLookup, hk, ih]

/-- `dict` lookup of a different key is unchanged by `m[k'] = v`. -/
lemma alistLookup_dictInsert_ne (m : List (Str × Str)) (k k' v : Str)
    (h : k' ≠ k) : alistLookup (dictInsert m k' v) k = alistLookup m k := by
  induction m with
  | nil => simp [dictInsert, alistLookup, h]
  | cons p rest ih =>
    obtain ⟨k0, v0⟩ := p
    by_cases hk : k0 = k'
    · subst hk
      simp only [dictInsert, if_pos rfl, alistLookup]
      rw [if_neg h, if_neg h]
    · simp only [dictInsert, if_neg hk]
      by_cases hk2 : k0 = k
      · simp [alistLookup, hk2]
      · simp [alistLookup, hk2, ih]

/-- A string splits as whitespace, its `strip`, and whitespace. -/
lemma pyStrip_decomposition (s : Str) :
    ∃ w1 w2, s = w1 ++ (pyStrip s ++ w2) ∧ (∀ c ∈ w1, pyWs c = true) ∧
      (∀ c ∈ w2, pyWs c = true) := by
  refine ⟨s.takeWhile pyWs, ((s.dropWhile pyWs).reverse.takeWhile pyWs).reverse,
    ?_, fun c hc => List.mem_takeWhile_imp hc, ?_⟩
  · conv_lhs => rw [← List.takeWhile_append_dropWhile pyWs s]
    congr 1
    unfold pyStrip
    rw [← List.reverse_append, List.takeWhile_append_dropWhile,
      List.reverse_reverse]
  · intro c hc
    rw [List.mem_reverse] at hc
    exact List.mem_takeWhile_imp hc

/-- `strip` only removes whitespace: a non-whitespace character survives. -/
lemma mem_pyStrip_of_not_ws (s : Str) (c : Char) (hc : c ∈ s)
    (hw : pyWs c = false) : c ∈ pyStrip s := by
  obtain ⟨w1, w2, hs, h1, h2⟩ := pyStrip_decomposition s
  rw [hs] at hc
  rcases List.mem_append.mp hc with h | h
  · rw [h1 c h] at hw
    cases hw
  · rcases List.mem_append.mp h with h' | h'
    · exact h'
    · rw [h2 c h'] at hw
      cases hw

/-- The one-step unfolding of `splitOnComma` on a nonempty string. -/
lemma splitOnComma_cons_eq (c : Char) (rest : Str) :
    splitOnComma (c :: rest) =
      (if c = ',' then [] :: splitOnComma rest
       else
         match splitOnComma rest with
         | [] => [[c]]
         | h :: t => (c :: h) :: t) := rfl

/-- `split(",")` on a comma-free string is the singleton. -/
lemma splitOnComma_no_comma (l : Str) (h : ∀ c ∈ l, ¬ c = ',') :
    splitOnComma l = [l] := by
  induction l with
  | nil => rfl
  | cons c rest ih =>
    rw [splitOnComma_cons_eq, if_neg (h c (List.mem_cons_self c rest)),
      ih fun x hx => h x (List.mem_cons_of_mem c hx)]

/-- C7: from the footnote `"28 Soja 29 Sellerie"` the Legend Resolver maps
`"soja" → "28"` and `"sellerie" → "29"`; every user filter allergen name
that normalises (strip + lowercase, as `Config.filter_allergen_names` does)
to `"soja"` resolves to the code `"28"`; and whenever an entry with a
multi-word cleaned name (first word differing from the full name) is
recorded, the first word and the full name map to the entry's code. -/
theorem C7_legend_resolution :
    (alistLookup (extract_allergen_mapping "28 Soja 29 Sellerie".data)
        "soja".data = some "28".data ∧
      alistLookup (extract_allergen_mapping "28 Soja 29 Sellerie".data)
        "sellerie".data = some "29".data) ∧
    (∀ s : Str, pyLower (pyStrip s) = "soja".data →
      "28".data ∈ resolve_filter_allergens (filter_allergen_names s)
        (extract_allergen_mapping "28 Soja 29 Sellerie".data)) ∧
    (∀ (m : List (Str × Str)) (code name : Str),
      3 ≤ (cleanName name).length →
      firstWord (cleanName name) ≠ cleanName name →
      alistLookup (processEntry m (code, name)) (firstWord (cleanName name)) =
          some code ∧
        alistLookup (processEntry m (code, name)) (cleanName name) =
          some code) := by
  refine ⟨⟨by decide, by decide⟩, ?_, ?_⟩
  · intro s h
    have hne : pyStrip s ≠ [] := by
      intro h0
      rw [h0] at h
      exact absurd h (by decide)
    have hnc : ∀ c ∈ s, ¬ c = ',' := by
      intro c hc hceq
      subst hceq
      have h1 : (',' : Char) ∈ pyStrip s :=
        mem_pyStrip_of_not_ws s ',' hc (by decide)
      have h2 : charLower ',' ∈ pyLower (pyStrip s) :=
        List.mem_map_of_mem charLower h1
      rw [h] at h2
      exact absurd h2 (by decide)
    have hnames : filter_allergen_names s = ["soja".data] := by
      unfold filter_allergen_names
      rw [splitOnComma_no_comma s hnc]
      simp only [List.filterMap_cons, List.filterMap_nil]
      rw [if_neg (by simpa using hne), h]
    rw [hnames]
    decide
  · intro m code name h3 hfw
    unfold processEntry
    dsimp only
    rw [if_neg (Nat.not_lt.mpr h3), if_pos hfw]
    exact ⟨alistLookup_dictInsert_self _ _ _,
      by
        rw [alistLookup_dictInsert_ne _ _ _ _ hfw]
        exact alistLookup_dictInsert_self _ _ _⟩

/-- C7, witness: the mixed-case, whitespace-padded filter name `" SoJa "`
resolves to `"28"`, and recording the multi-word entry
`("1", "Soja Bohne")` makes both `"soja bohne"` and its first word `"soja"`
map to `"1"`. -/
theorem C7_legend_witness :
    "28".data ∈ resolve_filter_allergens (filter_allergen_names " SoJa ".data)
      (extract_allergen_mapping "28 Soja 29 Sellerie".data) ∧
    (alistLookup (processEntry [] ("1".data, "Soja Bohne".data))
        (firstWord (cleanName "Soja Bohne".data)) = some "1".data ∧
      alistLookup (processEntry [] ("1".data, "Soja Bohne".data))
        (cleanName "Soja Bohne".data) = some "1".data) :=
  ⟨C7_legend_resolution.2.1 " SoJa ".data (by decide),
   C7_legend_resolution.2.2 [] "1".data "Soja Bohne".data (by decide)
     (by decide)⟩
